import Mathlib

/-!
Verification of the forecast-generation / upload pipeline
(`run_and_sync_forecast_PG.py` and `run_and_sync_forecast_PG_2020_1.py`).

The development shallowly embeds the pieces of the two scripts that the
specification talks about:

* `is_file_stable` — the artifact stability detector;
* `uploadCalls` / `chunkedLoop` — the sequence of remote-store calls issued
  by `upload_result_to_dropbox`, parameterised by the chunk size;
* `execUpload` — execution of that call sequence against a remote store in
  which any call may fail, tracking whether the local file gets deleted;
* `workerPass` / `workerLoopRun` — the background uploader thread
  (`upload_worker`), one poll pass and the polling loop;
* `runSeqF` — the lookahead date loop of `run_forecasts` in the 2020 variant
  (bootstrap of two generations, then process-one / generate-one, then drain),
  with a per-job failure oracle modelling an exception raised inside
  `subset_and_upload`.

Machine integers do not overflow in any of the modelled code paths, so sizes
and offsets are `Nat` and timestamps are `Int` (Python time arithmetic may go
negative, which `Int` preserves).
-/

/-! ## Artifact stability detector (`is_file_stable`) -/

/-- Outcome of the `os.stat` call inside `is_file_stable`: a successful stat
carrying size and mtime, a `FileNotFoundError`, or any other `OSError`
(carrying an error code). -/
inductive StatOutcome where
  | ok (size : Nat) (mtime : Int)
  | fileNotFound
  | otherError (e : Nat)
deriving DecidableEq, Repr

/-- Default `min_size_bytes` of `is_file_stable` (3_500_000_000). -/
def MIN_SIZE_BYTES : Nat := 3500000000

/-- Default `idle_seconds` of `is_file_stable` (30). -/
def IDLE_SECONDS : Int := 30

/-- Embedding of `is_file_stable(path, min_size_bytes, idle_seconds)`.
The `os.stat` call is abstracted by its outcome `st`; `now` is the value of
`time.time()`.  The Python body computes
`file_size >= min_size_bytes and time_since_mod >= idle_seconds`, returns
`False` on `FileNotFoundError`, and lets every other exception escape
(modelled as `Except.error`). -/
def is_file_stable (st : StatOutcome) (now : Int) (min_size_bytes : Nat)
    (idle_seconds : Int) : Except Nat Bool :=
  match st with
  | StatOutcome.ok size mtime =>
      Except.ok (decide (min_size_bytes ≤ size) && decide (idle_seconds ≤ now - mtime))
  | StatOutcome.fileNotFound => Except.ok false
  | StatOutcome.otherError e => Except.error e

/-- Claim C1: for every path, minimum size and idle window, `is_file_stable`
returns `false` (raising nothing) when the path does not exist; otherwise it
returns `true` iff the size is at least `min_size_bytes` and the time since
last modification is at least `idle_seconds`; in particular it returns
`false` whenever the size is below the threshold regardless of idle time,
and `false` whenever the idle time is below the window regardless of size. -/
theorem C1_is_file_stable_spec (size : Nat) (mtime now : Int)
    (min_size_bytes : Nat) (idle_seconds : Int) :
    is_file_stable StatOutcome.fileNotFound now min_size_bytes idle_seconds
      = Except.ok false
    ∧ (is_file_stable (StatOutcome.ok size mtime) now min_size_bytes idle_seconds
        = Except.ok true ↔ (min_size_bytes ≤ size ∧ idle_seconds ≤ now - mtime))
    ∧ (size < min_size_bytes →
        is_file_stable (StatOutcome.ok size mtime) now min_size_bytes idle_seconds
          = Except.ok false)
    ∧ (now - mtime < idle_seconds →
        is_file_stable (StatOutcome.ok size mtime) now min_size_bytes idle_seconds
          = Except.ok false) := by
  refine ⟨rfl, ?_, ?_, ?_⟩
  · simp [is_file_stable]
  · intro h
    simp [is_file_stable, Nat.not_le.mpr h]
  · intro h
    simp [is_file_stable, Int.not_le.mpr h]

/-- Witness for C1 at concrete inputs. -/
theorem C1_is_file_stable_spec_witness :
    ((5 : Nat) < 10 ∧
      is_file_stable (StatOutcome.ok 5 0) 100 10 30 = Except.ok false) ∧
    ((100 : Int) - 90 < 30 ∧
      is_file_stable (StatOutcome.ok 20 90) 100 10 30 = Except.ok false) := by
  refine ⟨⟨by decide, ?_⟩, ⟨by decide, ?_⟩⟩
  · exact (C1_is_file_stable_spec 5 0 100 10 30).2.2.1 (by decide)
  · exact (C1_is_file_stable_spec 20 90 100 10 30).2.2.2 (by decide)

/-- Claim C10: the stability check treats only file-non-existence as a normal
`false` result; any other error from the underlying stat call is propagated
to the caller instead of being turned into `false`. -/
theorem C10_stat_error_propagates (e : Nat) (now : Int)
    (min_size_bytes : Nat) (idle_seconds : Int) :
    is_file_stable (StatOutcome.otherError e) now min_size_bytes idle_seconds
      = Except.error e
    ∧ is_file_stable StatOutcome.fileNotFound now min_size_bytes idle_seconds
      = Except.ok false := ⟨rfl, rfl⟩

/-! ## Remote-store call sequence of `upload_result_to_dropbox` -/

/-- One remote-store call issued by `upload_result_to_dropbox`:
`files_upload` (whole-file), `files_upload_session_start`,
`files_upload_session_append_v2` (carrying the cursor offset passed with it),
or `files_upload_session_finish`. -/
inductive UpCall where
  | whole (b : List Nat)
  | start (b : List Nat)
  | append (b : List Nat) (off : Nat)
  | finish (b : List Nat)
deriving DecidableEq, Repr

/-- Constant `CHUNK_SIZE = 100 * 1024 * 1024` from `upload_result_to_dropbox`. -/
def CHUNK_SIZE : Nat := 100 * 1024 * 1024

/-- The `while True` loop of the chunked branch of `upload_result_to_dropbox`:
from read position `pos`, read up to `C` bytes; stop on an empty read;
if `f.tell() < file_size` issue `session_append` with the current cursor
offset (the position before the read) and continue, otherwise issue
`session_finish` with the final chunk. -/
def chunkedLoop (C : Nat) (file : List Nat) (pos : Nat) : List UpCall :=
  if h : ((file.drop pos).take C).length = 0 then []
  else if h2 : pos + ((file.drop pos).take C).length < file.length then
    UpCall.append ((file.drop pos).take C) pos
      :: chunkedLoop C file (pos + ((file.drop pos).take C).length)
  else [UpCall.finish ((file.drop pos).take C)]
termination_by file.length - pos
decreasing_by
  simp_wf
  have hlen : ((file.drop pos).take C).length = C ⊓ (file.length - pos) := by
    simp [List.length_take]
  rw [hlen] at h h2
  rcases Nat.le_total C (file.length - pos) with h3 | h3
  · rw [inf_of_le_left h3] at h h2 ⊢
    omega
  · rw [inf_of_le_right h3] at h h2 ⊢
    omega

/-- The chunked branch of `upload_result_to_dropbox`: `session_start` with the
first chunk, then the append/finish loop starting at the position after that
read (`f.tell()`). -/
def chunkedCalls (C : Nat) (file : List Nat) : List UpCall :=
  UpCall.start (file.take C) :: chunkedLoop C file (file.take C).length

/-- The full call sequence of `upload_result_to_dropbox`: one `files_upload`
when `file_size <= CHUNK_SIZE`, else the chunked session. -/
def uploadCalls (C : Nat) (file : List Nat) : List UpCall :=
  if file.length ≤ C then [UpCall.whole file]
  else chunkedCalls C file

/-- The bytes carried by one remote call. -/
def payload : UpCall → List Nat
  | UpCall.whole b => b
  | UpCall.start b => b
  | UpCall.append b _ => b
  | UpCall.finish b => b

/-- The byte sequence delivered to the remote store by a call sequence. -/
def payloadConcat : List UpCall → List Nat
  | [] => []
  | c :: rest => payload c ++ payloadConcat rest

/-- Whether a call commits the remote object (whole-file upload or
session-finish). -/
def isCommit : UpCall → Bool
  | UpCall.whole _ => true
  | UpCall.finish _ => true
  | _ => false

/-- Cursor offsets carried by the `session_append` calls of a sequence. -/
def appendOffsets (l : List UpCall) : List Nat :=
  l.filterMap fun c => match c with
    | UpCall.append _ o => some o
    | _ => none

/-- The chunk loop delivers exactly the bytes of the file from `pos` on. -/
theorem chunkedLoop_concat (C : Nat) (hC : 0 < C) :
    ∀ (n : Nat) (file : List Nat) (pos : Nat), file.length - pos ≤ n →
      payloadConcat (chunkedLoop C file pos) = file.drop pos := by
  intro n
  induction n with
  | zero =>
      intro file pos h
      have hpos : file.length ≤ pos := by omega
      have hnil : file.drop pos = [] := List.drop_eq_nil_of_le hpos
      rw [chunkedLoop.eq_def]
      simp [hnil, payloadConcat]
  | succ n ih =>
      intro file pos h
      have hlen : ((file.drop pos).take C).length = min C (file.length - pos) := by
        simp [List.length_take]
      rw [chunkedLoop.eq_def]
      by_cases h0 : ((file.drop pos).take C).length = 0
      · rw [dif_pos h0]
        have hdnil : file.drop pos = [] := by
          apply List.length_eq_zero.mp
          have : (file.drop pos).length = file.length - pos := by
            simp [List.length_drop]
          omega
        simp [payloadConcat, hdnil]
      · rw [dif_neg h0]
        by_cases h1 : pos + ((file.drop pos).take C).length < file.length
        · -- a full chunk was read and appended
          rw [dif_pos h1]
          have hCfull : ((file.drop pos).take C).length = C := by omega
          have hrec := ih file (pos + ((file.drop pos).take C).length) (by omega)
          simp only [payloadConcat, payload]
          rw [hrec, hCfull]
          rw [← List.drop_drop C pos file]
          exact List.take_append_drop C (file.drop pos)
        · -- final chunk: the read reached end of file
          rw [dif_neg h1]
          have hall : (file.drop pos).length ≤ C := by
            simp only [List.length_drop]
            omega
          simp [payloadConcat, payload, List.take_of_length_le hall]

/-- The chunked strategy delivers the file's bytes in order, for every file. -/
theorem chunkedCalls_concat (C : Nat) (hC : 0 < C) (file : List Nat) :
    payloadConcat (chunkedCalls C file) = file := by
  unfold chunkedCalls
  have h := chunkedLoop_concat C hC (file.length - (file.take C).length) file
    (file.take C).length (le_refl _)
  simp only [payloadConcat, payload]
  rw [h]
  have hmin : (file.take C).length = min C file.length := List.length_take C file
  rcases Nat.le_total C file.length with h' | h'
  · have : (file.take C).length = C := by omega
    rw [this]
    exact List.take_append_drop C file
  · have h1 : file.take C = file := List.take_of_length_le h'
    rw [h1]
    simp [List.drop_length]

/-- Claim C3: for every file of any size, the byte sequence delivered by the
chunked upload path (session-start bytes, then the session-append bytes in
cursor order, then the session-finish bytes) equals the byte sequence
delivered by the whole-file path, namely the file's full contents in order;
in particular the dispatching `uploadCalls` always delivers the file, so the
two strategies agree at every size, including one byte below, exactly at,
and one byte above the 100 MiB threshold. -/
theorem C3_chunked_equals_whole (file : List Nat) :
    payloadConcat (chunkedCalls CHUNK_SIZE file) = file
    ∧ payloadConcat [UpCall.whole file] = file
    ∧ payloadConcat (uploadCalls CHUNK_SIZE file) = file := by
  have hC : 0 < CHUNK_SIZE := by norm_num [CHUNK_SIZE]
  have hchunk := chunkedCalls_concat CHUNK_SIZE hC file
  refine ⟨hchunk, by simp [payloadConcat, payload], ?_⟩
  unfold uploadCalls
  by_cases h : file.length ≤ CHUNK_SIZE
  · simp [h, payloadConcat, payload]
  · simp [h, hchunk]

/-- Structure of the chunk loop when at least one byte remains: a run of
`session_append` calls whose payloads are full `C`-byte chunks and whose
cursor offsets are at least `pos`, closed by exactly one `session_finish`
whose payload is the nonempty final tail of the file of length at most `C`. -/
theorem chunkedLoop_struct (C : Nat) (hC : 0 < C) :
    ∀ (n : Nat) (file : List Nat) (pos : Nat), file.length - pos ≤ n →
      pos < file.length →
      ∃ mids lastChunk,
        chunkedLoop C file pos = mids ++ [UpCall.finish lastChunk]
        ∧ (∀ c ∈ mids, ∃ b o, c = UpCall.append b o ∧ b.length = C ∧ pos ≤ o)
        ∧ (appendOffsets mids).Pairwise (· < ·)
        ∧ 0 < lastChunk.length ∧ lastChunk.length ≤ C
        ∧ lastChunk = file.drop (file.length - lastChunk.length) := by
  intro n
  induction n with
  | zero =>
      intro file pos h hpos
      omega
  | succ n ih =>
      intro file pos h hpos
      have hlen : ((file.drop pos).take C).length = C ⊓ (file.length - pos) := by
        simp [List.length_take]
      have h0 : ¬ ((file.drop pos).take C).length = 0 := by
        rw [hlen]
        rcases Nat.le_total C (file.length - pos) with h3 | h3
        · rw [inf_of_le_left h3]
          omega
        · rw [inf_of_le_right h3]
          omega
      rw [chunkedLoop.eq_def, dif_neg h0]
      by_cases h1 : pos + ((file.drop pos).take C).length < file.length
      · -- append case: full chunk, loop continues
        rw [dif_pos h1]
        have hCfull : ((file.drop pos).take C).length = C := by
          rw [hlen] at h1 ⊢
          rcases Nat.le_total C (file.length - pos) with h3 | h3
          · rw [inf_of_le_left h3]
          · rw [inf_of_le_right h3] at h1 ⊢
            omega
        obtain ⟨mids, lastChunk, heq, hmids, hpair, hl1, hl2, hl3⟩ :=
          ih file (pos + ((file.drop pos).take C).length) (by omega) (by omega)
        refine ⟨UpCall.append ((file.drop pos).take C) pos :: mids, lastChunk,
          by rw [heq]; rfl, ?_, ?_, hl1, hl2, hl3⟩
        · intro c hc
          rcases List.mem_cons.mp hc with hc | hc
          · exact ⟨(file.drop pos).take C, pos, hc, hCfull, le_refl pos⟩
          · obtain ⟨b, o, hco, hbl, hpo⟩ := hmids c hc
            exact ⟨b, o, hco, hbl, by omega⟩
        · have hoff : appendOffsets (UpCall.append ((file.drop pos).take C) pos :: mids)
              = pos :: appendOffsets mids := by
            simp [appendOffsets]
          rw [hoff]
          refine List.pairwise_cons.mpr ⟨?_, hpair⟩
          intro o ho
          have : ∃ c ∈ mids, ∃ b, c = UpCall.append b o := by
            simp only [appendOffsets, List.mem_filterMap] at ho
            obtain ⟨c, hc, hco⟩ := ho
            cases c with
            | append b o' =>
                refine ⟨UpCall.append b o', hc, b, ?_⟩
                simp at hco
                rw [hco]
            | whole b => simp at hco
            | start b => simp at hco
            | finish b => simp at hco
          obtain ⟨c, hc, b, hco⟩ := this
          obtain ⟨b', o', hco', hbl', hpo'⟩ := hmids c hc
          rw [hco] at hco'
          have ho' : o = o' := by
            injection hco' with _ h
          omega
      · -- finish case: the read reached end of file
        rw [dif_neg h1]
        have hfin : (file.drop pos).take C = file.drop pos := by
          apply List.take_of_length_le
          simp only [List.length_drop]
          rw [hlen] at h1
          rcases Nat.le_total C (file.length - pos) with h3 | h3
          · rw [inf_of_le_left h3] at h1
            omega
          · exact h3
        refine ⟨[], file.drop pos, by rw [hfin, List.nil_append],
          by simp, by simp [appendOffsets], ?_, ?_, ?_⟩
        · simp only [List.length_drop]
          omega
        · rw [← hfin]
          simp only [List.length_take, List.length_drop]
          rcases Nat.le_total C (file.length - pos) with h3 | h3
          · rw [inf_of_le_left h3]
          · rw [inf_of_le_right h3]
            omega
        · simp only [List.length_drop]
          congr 1
          omega

/-- Claim C4: the transfer performs exactly one whole-file upload when the
file size is at most the fixed 100 MiB threshold; otherwise it opens a
chunked session starting with the first chunk, whose `session_append` cursor
offsets strictly increase, whose appended payloads are full chunks, and
whose last call is the single `session_finish` carrying the nonempty final
chunk of size at most `CHUNK_SIZE` — the tail of the file from the point
where the read position reaches the file size. -/
theorem C4_upload_dispatch (file : List Nat) :
    (file.length ≤ CHUNK_SIZE →
      uploadCalls CHUNK_SIZE file = [UpCall.whole file])
    ∧ (CHUNK_SIZE < file.length →
      ∃ mids lastChunk,
        uploadCalls CHUNK_SIZE file
          = UpCall.start (file.take CHUNK_SIZE) :: (mids ++ [UpCall.finish lastChunk])
        ∧ (∀ c ∈ mids, ∃ b o, c = UpCall.append b o ∧ b.length = CHUNK_SIZE)
        ∧ (appendOffsets mids).Pairwise (· < ·)
        ∧ 0 < lastChunk.length ∧ lastChunk.length ≤ CHUNK_SIZE
        ∧ lastChunk = file.drop (file.length - lastChunk.length)) := by
  constructor
  · intro h
    simp [uploadCalls, h]
  · intro h
    have hC : 0 < CHUNK_SIZE := by norm_num [CHUNK_SIZE]
    have hpos : (file.take CHUNK_SIZE).length = CHUNK_SIZE := by
      rw [List.length_take]
      omega
    obtain ⟨mids, lastChunk, heq, hmids, hpair, hl1, hl2, hl3⟩ :=
      chunkedLoop_struct CHUNK_SIZE hC (file.length - (file.take CHUNK_SIZE).length)
        file (file.take CHUNK_SIZE).length (le_refl _) (by omega)
    refine ⟨mids, lastChunk, ?_, ?_, hpair, hl1, hl2, hl3⟩
    · rw [uploadCalls, if_neg (by omega), chunkedCalls, heq]
    · intro c hc
      obtain ⟨b, o, hco, hbl, _⟩ := hmids c hc
      exact ⟨b, o, hco, hbl⟩

/-- Witness for C4: a two-byte file with chunk threshold semantics checked on
both sides of the dispatch, using a small file below the threshold and a
replicated file one byte above it. -/
theorem C4_upload_dispatch_witness :
    (([5, 6] : List Nat).length ≤ CHUNK_SIZE ∧
      uploadCalls CHUNK_SIZE [5, 6] = [UpCall.whole [5, 6]])
    ∧ (CHUNK_SIZE < (List.replicate (CHUNK_SIZE + 1) 0).length ∧
      ∃ mids lastChunk,
        uploadCalls CHUNK_SIZE (List.replicate (CHUNK_SIZE + 1) 0)
          = UpCall.start ((List.replicate (CHUNK_SIZE + 1) 0).take CHUNK_SIZE)
              :: (mids ++ [UpCall.finish lastChunk])
        ∧ (∀ c ∈ mids, ∃ b o, c = UpCall.append b o ∧ b.length = CHUNK_SIZE)
        ∧ (appendOffsets mids).Pairwise (· < ·)
        ∧ 0 < lastChunk.length ∧ lastChunk.length ≤ CHUNK_SIZE
        ∧ lastChunk = (List.replicate (CHUNK_SIZE + 1) 0).drop
            ((List.replicate (CHUNK_SIZE + 1) 0).length - lastChunk.length)) := by
  constructor
  · have hle : ([5, 6] : List Nat).length ≤ CHUNK_SIZE := by
      norm_num [CHUNK_SIZE]
    exact ⟨hle, (C4_upload_dispatch [5, 6]).1 hle⟩
  · have hlt : CHUNK_SIZE < (List.replicate (CHUNK_SIZE + 1) 0).length := by
      simp [List.length_replicate]
    exact ⟨hlt, (C4_upload_dispatch (List.replicate (CHUNK_SIZE + 1) 0)).2 hlt⟩

/-! ## Execution of the upload against a faulty remote store (C2) -/

/-- Run the remote calls in order.  `fails i = true` means the `i`-th remote
call raises (a Dropbox API error); execution stops there, exactly as the
Python exception aborts `upload_result_to_dropbox` before `os.remove`.
Returns the acknowledged calls and whether every call was acknowledged. -/
def runCalls (fails : Nat → Bool) : List UpCall → Nat → List UpCall × Bool
  | [], _ => ([], true)
  | c :: rest, i =>
      if fails i then ([], false)
      else
        let r := runCalls fails rest (i + 1)
        (c :: r.1, r.2)

/-- Result of one execution of `upload_result_to_dropbox`: the calls the
remote store acknowledged, whether `os.remove(local_file)` ran, and whether
an exception was raised out of the function. -/
structure ExecResult where
  acked : List UpCall
  localDeleted : Bool
  raised : Bool
deriving DecidableEq, Repr

/-- Execute `upload_result_to_dropbox` for `file` against a remote store
whose `i`-th call fails iff `fails i`.  The local file is removed exactly
when control reaches the `os.remove` after the `with` block, i.e. when no
remote call raised. -/
def execUpload (C : Nat) (file : List Nat) (fails : Nat → Bool) : ExecResult :=
  let r := runCalls fails (uploadCalls C file) 0
  ⟨r.1, r.2, !r.2⟩

/-- The acknowledged calls are an initial segment of the issued calls. -/
theorem runCalls_take (fails : Nat → Bool) :
    ∀ (l : List UpCall) (i : Nat),
      (runCalls fails l i).1 = l.take (runCalls fails l i).1.length := by
  intro l
  induction l with
  | nil => intro i; simp [runCalls]
  | cons c rest ih =>
      intro i
      by_cases hf : fails i
      · simp [runCalls, hf]
      · have heq : runCalls fails (c :: rest) i
            = (c :: (runCalls fails rest (i + 1)).1, (runCalls fails rest (i + 1)).2) := by
          simp [runCalls, hf]
        rw [heq]
        simp only [List.length_cons, List.take_succ_cons]
        exact congrArg (c :: ·) (ih (i + 1))

/-- Full acknowledgement is equivalent to the acknowledged list being the
whole call list. -/
theorem runCalls_complete (fails : Nat → Bool) :
    ∀ (l : List UpCall) (i : Nat),
      (runCalls fails l i).2 = true ↔ (runCalls fails l i).1 = l := by
  intro l
  induction l with
  | nil => intro i; simp [runCalls]
  | cons c rest ih =>
      intro i
      by_cases hf : fails i
      · simp [runCalls, hf]
      · have heq : runCalls fails (c :: rest) i
            = (c :: (runCalls fails rest (i + 1)).1, (runCalls fails rest (i + 1)).2) := by
          simp [runCalls, hf]
        rw [heq]
        simp [ih (i + 1)]

/-- In every call sequence issued by `upload_result_to_dropbox` the single
committing call (whole-file upload or session-finish) is the last one. -/
theorem uploadCalls_commit_last (C : Nat) (hC : 0 < C) (file : List Nat) :
    ∃ pre lastCall,
      uploadCalls C file = pre ++ [lastCall]
      ∧ isCommit lastCall = true
      ∧ ∀ c ∈ pre, isCommit c = false := by
  by_cases h : file.length ≤ C
  · refine ⟨[], UpCall.whole file, ?_, rfl, by simp⟩
    simp [uploadCalls, h]
  · have hlt : C < file.length := by omega
    obtain ⟨mids, lastChunk, heq, hmids, _, _, _, _⟩ :=
      chunkedLoop_struct C hC (file.length - (file.take C).length) file
        (file.take C).length (le_refl _)
        (by rw [List.length_take]; omega)
    refine ⟨UpCall.start (file.take C) :: mids, UpCall.finish lastChunk, ?_, rfl, ?_⟩
    · rw [uploadCalls, if_neg h, chunkedCalls, heq]
      simp
    · intro c hc
      rcases List.mem_cons.mp hc with hc | hc
      · rw [hc]; rfl
      · obtain ⟨b, o, hco, _, _⟩ := hmids c hc
        rw [hco]; rfl

/-- Claim C2: the local file is deleted iff the remote store acknowledged the
final committing call (the whole-file upload for small files, the
session-finish for chunked uploads); whenever a failure is raised before
that acknowledgement the local file is untouched, so the transfer is atomic
with respect to local durable state. -/
theorem C2_delete_iff_commit_acked (C : Nat) (file : List Nat)
    (fails : Nat → Bool) (hC : 0 < C) :
    ((execUpload C file fails).localDeleted = true ↔
      ∃ c ∈ (execUpload C file fails).acked, isCommit c = true)
    ∧ ((execUpload C file fails).raised = true →
      (execUpload C file fails).localDeleted = false) := by
  obtain ⟨pre, lastCall, heq, hcommit, hpre⟩ := uploadCalls_commit_last C hC file
  have hacked : (execUpload C file fails).acked
      = (uploadCalls C file).take (execUpload C file fails).acked.length := by
    simpa [execUpload] using runCalls_take fails (uploadCalls C file) 0
  have hdel : (execUpload C file fails).localDeleted = true ↔
      (execUpload C file fails).acked = uploadCalls C file := by
    simpa [execUpload] using runCalls_complete fails (uploadCalls C file) 0
  constructor
  · constructor
    · intro h
      rw [hdel.mp h, heq]
      exact ⟨lastCall, by simp, hcommit⟩
    · intro ⟨c, hc, hcc⟩
      rw [hdel]
      by_contra hne
      -- a proper prefix of the calls contains no committing call
      set k := (execUpload C file fails).acked.length with hk
      have hlt : k < (uploadCalls C file).length := by
        rcases Nat.lt_or_ge k (uploadCalls C file).length with h' | h'
        · exact h'
        · exfalso
          apply hne
          rw [hacked, List.take_of_length_le h']
      have hkpre : k ≤ pre.length := by
        rw [heq] at hlt
        simp at hlt
        omega
      have hsub : (execUpload C file fails).acked = pre.take k := by
        rw [hacked, heq, List.take_append_of_le_length hkpre]
      have : c ∈ pre := by
        rw [hsub] at hc
        exact List.mem_of_mem_take hc
      rw [hpre c this] at hcc
      exact Bool.false_ne_true hcc
  · intro h
    simp only [execUpload] at h ⊢
    simpa using h

/-- Witness for C2: a three-byte file with chunk size one, no fault injected:
the file is deleted and a committing call was acknowledged. -/
theorem C2_delete_iff_commit_acked_witness :
    0 < 1 ∧
    (((execUpload 1 [7, 8, 9] (fun _ => false)).localDeleted = true ↔
      ∃ c ∈ (execUpload 1 [7, 8, 9] (fun _ => false)).acked, isCommit c = true)
    ∧ ((execUpload 1 [7, 8, 9] (fun _ => false)).raised = true →
      (execUpload 1 [7, 8, 9] (fun _ => false)).localDeleted = false)) :=
  ⟨by decide, C2_delete_iff_commit_acked 1 [7, 8, 9] (fun _ => false) (by decide)⟩

/-! ## Lookahead orchestrator (`run_forecasts` of the 2020 variant) -/

/-- One observable event of the date loop: generating the forecast for the
`d`-th date of the range (the `ai-models` subprocess call), or handing the
`d`-th artifact to `subset_and_upload` (post-processing plus transfer). -/
inductive Ev where
  | gen (d : Nat)
  | proc (d : Nat)
deriving DecidableEq, Repr

/-- The final `while forecast_queue:` drain of `run_forecasts`, with a
failure oracle `pf`: `pf d = true` means `subset_and_upload` raises on the
`d`-th artifact, which propagates and aborts the loop (there is no
`try`/`except` around the call).  Returns the event trace and whether the
run aborted with an exception. -/
def drainF (pf : Nat → Bool) : List Nat → List Ev × Bool
  | [] => ([], false)
  | d :: rest =>
      if pf d then ([Ev.proc d], true)
      else
        let r := drainF pf rest
        (Ev.proc d :: r.1, r.2)

/-- The main `while next_date <= end_date:` loop of `run_forecasts`:
`rem` is the number of dates left in the range (the loop runs once per
remaining date), `next` the index of the next date, `q` the
`forecast_queue`.  Each iteration pops the oldest queued artifact, runs
`subset_and_upload` on it (aborting the whole loop if that raises), then
generates the next date and appends it to the queue; afterwards the
remaining queue is drained. -/
def mainLoopF (pf : Nat → Bool) : Nat → Nat → List Nat → List Ev × Bool
  | 0, _, q => drainF pf q
  | rem + 1, next, q =>
      match q with
      | [] => ([], false)
      | d :: rest =>
          if pf d then ([Ev.proc d], true)
          else
            let r := mainLoopF pf rem (next + 1) (rest ++ [next])
            (Ev.proc d :: Ev.gen next :: r.1, r.2)

/-- Function `run_forecasts` of the 2020 variant for a date range of `K` days
(dates indexed `0 .. K-1`), with failure oracle `pf`: the bootstrap
unconditionally generates the first two dates (`for _ in range(2)`), then
the main loop runs while `next_date <= end_date`, i.e. `K - 2` more times,
then the queue is drained. -/
def runSeqF (K : Nat) (pf : Nat → Bool) : List Ev × Bool :=
  let r := mainLoopF pf (K - 2) 2 [0, 1]
  (Ev.gen 0 :: Ev.gen 1 :: r.1, r.2)

/-- The failure-free run of `run_forecasts` (every `subset_and_upload`
succeeds). -/
def runSeq (K : Nat) : List Ev := (runSeqF K (fun _ => false)).1

/-- Dates of the generation events of a trace, in order. -/
def genDates (l : List Ev) : List Nat :=
  l.filterMap fun e => match e with
    | Ev.gen d => some d
    | _ => none

/-- Dates of the processing (post-processing + transfer) events of a trace,
in order. -/
def procDates (l : List Ev) : List Nat :=
  l.filterMap fun e => match e with
    | Ev.proc d => some d
    | _ => none

/-- Checks that, starting from `k` outstanding artifacts, the number of
generated-but-not-yet-processed artifacts never exceeds `W` along the
trace. -/
def pendingBounded (W : Nat) : List Ev → Nat → Bool
  | [], _ => true
  | Ev.gen _ :: rest, k => decide (k + 1 ≤ W) && pendingBounded W rest (k + 1)
  | Ev.proc _ :: rest, k => pendingBounded W rest (k - 1)

/-- Draining with no failures processes the whole queue in order. -/
theorem drainF_ff : ∀ q : List Nat, drainF (fun _ => false) q = (q.map Ev.proc, false) := by
  intro q
  induction q with
  | nil => rfl
  | cons d rest ih => simp [drainF, ih]

/-- A pure run of processing events contains no generation event. -/
theorem genDates_map_proc : ∀ l : List Nat, genDates (l.map Ev.proc) = [] := by
  intro l
  induction l with
  | nil => rfl
  | cons d rest ih => simpa [genDates] using ih

/-- A pure run of processing events processes exactly its queue, in order. -/
theorem procDates_map_proc : ∀ l : List Nat, procDates (l.map Ev.proc) = l := by
  intro l
  induction l with
  | nil => rfl
  | cons d rest ih => simpa [procDates] using ih

/-- Generation events of the failure-free main loop: one per remaining date,
in date order. -/
theorem mainLoopF_ff_gen : ∀ (rem next : Nat) (q : List Nat), q ≠ [] →
    genDates (mainLoopF (fun _ => false) rem next q).1 = List.range' next rem := by
  intro rem
  induction rem with
  | zero =>
      intro next q _
      rw [mainLoopF, drainF_ff]
      exact genDates_map_proc q
  | succ rem ih =>
      intro next q hq
      match q with
      | [] => exact absurd rfl hq
      | d :: rest =>
          have hne : rest ++ [next] ≠ [] := by simp
          simp only [mainLoopF, if_neg (by simp : ¬ (false = true))]
          simp only [genDates, List.filterMap_cons] at ih ⊢
          rw [ih (next + 1) (rest ++ [next]) hne]
          rw [List.range'_succ]

/-- Processing events of the failure-free main loop: the queued artifacts
first, then one per remaining date, in FIFO order. -/
theorem mainLoopF_ff_proc : ∀ (rem next : Nat) (q : List Nat), q ≠ [] →
    procDates (mainLoopF (fun _ => false) rem next q).1 = q ++ List.range' next rem := by
  intro rem
  induction rem with
  | zero =>
      intro next q _
      rw [mainLoopF, drainF_ff]
      simpa using procDates_map_proc q
  | succ rem ih =>
      intro next q hq
      match q with
      | [] => exact absurd rfl hq
      | d :: rest =>
          have hne : rest ++ [next] ≠ [] := by simp
          simp only [mainLoopF, if_neg (by simp : ¬ (false = true))]
          simp only [procDates, List.filterMap_cons] at ih ⊢
          rw [ih (next + 1) (rest ++ [next]) hne]
          rw [List.range'_succ]
          simp

/-- The failure-free main loop keeps the queue length constant, so the
number of outstanding artifacts never exceeds the bound it starts with. -/
theorem mainLoopF_ff_bounded : ∀ (rem next : Nat) (q : List Nat) (W : Nat),
    q.length ≤ W →
    pendingBounded W (mainLoopF (fun _ => false) rem next q).1 q.length = true := by
  intro rem
  induction rem with
  | zero =>
      intro next q W _
      rw [mainLoopF, drainF_ff]
      -- a drain only decrements the outstanding count
      have : ∀ (l : List Nat) (k : Nat), pendingBounded W (l.map Ev.proc) k = true := by
        intro l
        induction l with
        | nil => intro k; rfl
        | cons d rest ih => intro k; simpa [pendingBounded] using ih (k - 1)
      exact this q q.length
  | succ rem ih =>
      intro next q W hW
      match q with
      | [] =>
          simp [mainLoopF, pendingBounded]
      | d :: rest =>
          simp only [mainLoopF, if_neg (by simp : ¬ (false = true))]
          simp only [pendingBounded, List.length_cons, Nat.add_sub_cancel]
          have h2 : rest.length + 1 ≤ W := by simpa using hW
          have h3 := ih (next + 1) (rest ++ [next]) W (by simpa using hW)
          simp only [List.length_append, List.length_cons, List.length_nil] at h3
          simp [h2, h3]

/-- Counterexample for C5: for a date range of length `K = 1` the bootstrap
loop (`for _ in range(2)`) still issues two generation calls, the second one
for a date outside the range, and two processing attempts — not exactly
`K` of each. -/
theorem C5_counterexample :
    genDates (runSeq 1) = [0, 1]
    ∧ (procDates (runSeq 1)).length = 2
    ∧ ¬ ((genDates (runSeq 1)).length = 1
        ∧ ∀ d ∈ genDates (runSeq 1), d < 1) := by decide

/-- Claim C5 (amended): for every date range of length `K ≥ 2` and lookahead
depth `W = 2`, the run issues exactly `K` generation calls — one per date of
the range, in order, none outside it — and exactly `K` post-processing-plus-
transfer attempts, and at every point of the run at most `W = 2` artifacts
are generated but not yet transferred.  (For `K = 1` the unconditional
two-job bootstrap issues 2 generation calls, one beyond the range.) -/
theorem C5_lookahead_counts (K : Nat) (hK : 2 ≤ K) :
    genDates (runSeq K) = List.range K
    ∧ (procDates (runSeq K)).length = K
    ∧ pendingBounded 2 (runSeq K) 0 = true := by
  have hne : ([0, 1] : List Nat) ≠ [] := by simp
  have hgen := mainLoopF_ff_gen (K - 2) 2 [0, 1] hne
  have hproc := mainLoopF_ff_proc (K - 2) 2 [0, 1] hne
  have hbound := mainLoopF_ff_bounded (K - 2) 2 [0, 1] 2 (by simp)
  have hrange : List.range K = 0 :: 1 :: List.range' 2 (K - 2) := by
    obtain ⟨m, rfl⟩ : ∃ m, K = m + 2 := ⟨K - 2, by omega⟩
    rw [List.range_eq_range']
    simp only [Nat.add_sub_cancel]
    rw [show m + 2 = (m + 1) + 1 from rfl, List.range'_succ, List.range'_succ]
  refine ⟨?_, ?_, ?_⟩
  · simp only [runSeq, runSeqF, genDates, List.filterMap_cons] at hgen ⊢
    rw [hgen, hrange]
  · simp only [runSeq, runSeqF, procDates, List.filterMap_cons] at hproc ⊢
    rw [hproc]
    simp
    omega
  · simp only [runSeq, runSeqF, pendingBounded]
    simpa using hbound

/-- Witness for C5 at `K = 3`. -/
theorem C5_lookahead_counts_witness :
    2 ≤ 3
    ∧ (genDates (runSeq 3) = List.range 3
      ∧ (procDates (runSeq 3)).length = 3
      ∧ pendingBounded 2 (runSeq 3) 0 = true) :=
  ⟨by decide, C5_lookahead_counts 3 (by decide)⟩

/-! ## Background transfer worker (`upload_worker`) -/

/-- What `os.stat` reports for an existing results file: size and mtime. -/
structure FileInfo where
  size : Nat
  mtime : Int
deriving DecidableEq, Repr

/-- State shared between `run_forecasts` and `upload_worker`:
`pending_uploads`, `uploaded`, and the `uploads_done` event.  Files are
identified by their date index. -/
structure WState where
  pending : List Nat
  uploaded : List Nat
  done : Bool
deriving DecidableEq, Repr

/-- The worker's stability test for file `f`: `is_file_stable(local_path)`
with the default threshold and idle window, where `fs` maps each file to its
current stat result (`none` = file does not exist). -/
def stableB (fs : Nat → Option FileInfo) (now : Int) (f : Nat) : Bool :=
  match fs f with
  | none => false
  | some fi =>
      match is_file_stable (StatOutcome.ok fi.size fi.mtime) now MIN_SIZE_BYTES IDLE_SECONDS with
      | Except.ok b => b
      | Except.error _ => false

/-- The body of `for fname in list(pending_uploads):` for one file `f`:
skip it when already uploaded or the file does not exist; otherwise, when
`is_file_stable` holds, try the upload — `ok f = true` means
`upload_result_to_dropbox` succeeded (then `f` is recorded as uploaded and
removed from the pending list), `ok f = false` means it raised, which the
`except` clause swallows leaving the state unchanged.  The accumulator also
collects the files committed during the pass, in order. -/
def passFile (fs : Nat → Option FileInfo) (now : Int) (ok : Nat → Bool)
    (sc : WState × List Nat) (f : Nat) : WState × List Nat :=
  let s := sc.1
  if f ∈ s.uploaded then sc
  else match fs f with
    | none => sc
    | some _ =>
        if stableB fs now f then
          if ok f then
            ({ pending := s.pending.erase f, uploaded := f :: s.uploaded,
               done := s.done }, sc.2 ++ [f])
          else sc
        else sc

/-- One poll pass of `upload_worker`: iterate over a snapshot of
`pending_uploads` (Python's `list(pending_uploads)`), mutating the shared
state; returns the new state and the files committed during the pass. -/
def workerPass (fs : Nat → Option FileInfo) (now : Int) (ok : Nat → Bool)
    (s : WState) : WState × List Nat :=
  s.pending.foldl (passFile fs now ok) (s, [])

/-- The worker loop's guard:
`while not uploads_done.is_set() or pending_uploads:`. -/
def workerGuard (s : WState) : Bool := !s.done || !s.pending.isEmpty

/-- The worker loop, one pass per 5-second poll interval.  `fs i`, `now i`
and `ok i` describe the environment during pass `i`; `fuel` bounds the
number of passes (the Python loop is unbounded); the result is
`some (i, s)` when the guard fails at the check of iteration `i` in state
`s` (the loop exits), and `none` when fuel runs out with the guard still
true. -/
def workerLoopRun (fs : Nat → Nat → Option FileInfo) (now : Nat → Int)
    (ok : Nat → Nat → Bool) : Nat → Nat → WState → Option (Nat × WState)
  | 0, i, s => if workerGuard s then none else some (i, s)
  | fuel + 1, i, s =>
      if workerGuard s then
        workerLoopRun fs now ok fuel (i + 1) (workerPass (fs i) (now i) (ok i) s).1
      else some (i, s)

/-- The commits of the worker loop, in the order the remote store
acknowledged them. -/
def workerLoopCommits (fs : Nat → Nat → Option FileInfo) (now : Nat → Int)
    (ok : Nat → Nat → Bool) : Nat → Nat → WState → List Nat
  | 0, _, _ => []
  | fuel + 1, i, s =>
      if workerGuard s then
        (workerPass (fs i) (now i) (ok i) s).2
          ++ workerLoopCommits fs now ok fuel (i + 1) (workerPass (fs i) (now i) (ok i) s).1
      else []

/-- Claim C7: the worker loop exits iff the no-more-work signal is set AND
the pending set is empty: the guard fails exactly then, the loop never
exits in any other state, and once both conditions hold at a check the loop
exits at that very check (discretely: within one poll interval, performing
no further pass). -/
theorem C7_worker_guard_exit (fs : Nat → Nat → Option FileInfo)
    (now : Nat → Int) (ok : Nat → Nat → Bool) (fuel i : Nat) (s : WState) :
    (workerGuard s = false ↔ (s.done = true ∧ s.pending = []))
    ∧ (s.done = true → s.pending = [] →
        workerLoopRun fs now ok fuel i s = some (i, s))
    ∧ (∀ j s', workerLoopRun fs now ok fuel i s = some (j, s') →
        s'.done = true ∧ s'.pending = []) := by
  have hguard : ∀ t : WState, workerGuard t = false ↔ (t.done = true ∧ t.pending = []) := by
    intro t
    simp [workerGuard, List.isEmpty_iff]
  refine ⟨hguard s, ?_, ?_⟩
  · intro hd hp
    have hg : workerGuard s = false := (hguard s).mpr ⟨hd, hp⟩
    cases fuel with
    | zero => simp [workerLoopRun, hg]
    | succ fuel => simp [workerLoopRun, hg]
  · induction fuel generalizing i s with
    | zero =>
        intro j s' h
        by_cases hg : workerGuard s
        · simp [workerLoopRun, hg] at h
        · simp [workerLoopRun, hg] at h
          rw [← h.2]
          exact (hguard s).mp (by simpa using hg)
    | succ fuel ih =>
        intro j s' h
        by_cases hg : workerGuard s
        · rw [workerLoopRun, if_pos hg] at h
          exact ih _ _ j s' h
        · rw [workerLoopRun, if_neg hg] at h
          simp at h
          rw [← h.2]
          exact (hguard s).mp (by simpa using hg)

/-- Witness for C7: a finished state (signal set, pending empty) makes the
loop exit immediately. -/
theorem C7_worker_guard_exit_witness :
    (⟨[], [], true⟩ : WState).done = true
    ∧ (⟨[], [], true⟩ : WState).pending = []
    ∧ workerLoopRun (fun _ _ => none) (fun _ => 0) (fun _ _ => true) 4 0
        ⟨[], [], true⟩ = some (0, ⟨[], [], true⟩) :=
  ⟨rfl, rfl,
    (C7_worker_guard_exit (fun _ _ => none) (fun _ => 0) (fun _ _ => true) 4 0
      ⟨[], [], true⟩).2.1 rfl rfl⟩

/-! ## C6: stability before processing -/

/-- Formalisation of claim C6 for the sequential (2020) variant: whatever
the artifacts' sizes and mtimes are, an artifact is handed to
`subset_and_upload` (a `proc` event) only if the stability predicate (size
at least the threshold and idle time at least the window) holds for it.
The sequential `run_forecasts` never consults sizes or mtimes, so its trace
is the same for every choice of `sizes` and `mtimes`. -/
def seqReadsStableOnly : Prop :=
  ∀ (K : Nat) (sizes : Nat → Nat) (mtimes : Nat → Int) (now : Int) (d : Nat),
    Ev.proc d ∈ runSeq K →
    is_file_stable (StatOutcome.ok (sizes d) (mtimes d)) now MIN_SIZE_BYTES IDLE_SECONDS
      = Except.ok true

/-- Counterexample for C6: in the sequential variant, artifact 0 is handed
to post-processing even when its file has size 0 (far below the 3.5 GB
threshold), because `run_forecasts` of the 2020 variant calls
`subset_and_upload` without any stability check. -/
theorem C6_counterexample : ¬ seqReadsStableOnly := by
  intro h
  have h0 := h 2 (fun _ => 0) (fun _ => 0) 1000000 0 (by decide)
  simp [is_file_stable, MIN_SIZE_BYTES, IDLE_SECONDS] at h0

/-- A single scan step commits a file only if it either was already in the
committed accumulator or passed the stability check. -/
theorem passFile_commits (fs : Nat → Option FileInfo) (now : Int)
    (ok : Nat → Bool) (sc : WState × List Nat) (g : Nat) :
    (passFile fs now ok sc g).2 = sc.2 ∨
    ((passFile fs now ok sc g).2 = sc.2 ++ [g] ∧ stableB fs now g = true) := by
  unfold passFile
  by_cases h1 : g ∈ sc.1.uploaded
  · simp [h1]
  · cases hfs : fs g with
    | none => simp [h1, hfs]
    | some fi =>
        by_cases h2 : stableB fs now g
        · by_cases h3 : ok g
          · right
            simp [h1, hfs, h2, h3]
          · simp [h1, hfs, h2, h3]
        · simp [h1, hfs, h2]

/-- Every file committed during a scan of the snapshot was either committed
before the scan or is stable. -/
theorem foldPass_commits_stable (fs : Nat → Option FileInfo) (now : Int)
    (ok : Nat → Bool) :
    ∀ (l : List Nat) (sc : WState × List Nat) (f : Nat),
      f ∈ (List.foldl (passFile fs now ok) sc l).2 →
      f ∈ sc.2 ∨ stableB fs now f = true := by
  intro l
  induction l with
  | nil =>
      intro sc f h
      exact Or.inl h
  | cons g rest ih =>
      intro sc f h
      rw [List.foldl_cons] at h
      rcases ih (passFile fs now ok sc g) f h with h' | h'
      · rcases passFile_commits fs now ok sc g with hp | ⟨hp, hstable⟩
        · rw [hp] at h'
          exact Or.inl h'
        · rw [hp] at h'
          rcases List.mem_append.mp h' with h'' | h''
          · exact Or.inl h''
          · right
            rw [List.mem_singleton.mp h'']
            exact hstable
      · exact Or.inr h'

/-- Claim C6 (amended): in the threaded variant, every artifact committed by
a worker pass satisfied the stability predicate (default threshold and idle
window) at the moment of the check — the worker uploads only files for which
`is_file_stable` returned true.  The sequential 2020 variant, by contrast,
invokes post-processing without evaluating the stability predicate (see the
counterexample), relying only on the generation subprocess having exited. -/
theorem C6_worker_commits_stable (fs : Nat → Option FileInfo) (now : Int)
    (ok : Nat → Bool) (s : WState) (f : Nat)
    (h : f ∈ (workerPass fs now ok s).2) :
    stableB fs now f = true := by
  rcases foldPass_commits_stable fs now ok s.pending (s, []) f h with h' | h'
  · simp at h'
  · exact h'

/-- Witness for C6 (amended): a stable file of exactly the threshold size
and idle window is committed by the pass, and indeed satisfies the check. -/
theorem C6_worker_commits_stable_witness :
    5 ∈ (workerPass (fun f => if f = 5 then some ⟨3500000000, 0⟩ else none)
          30 (fun _ => true) ⟨[5], [], true⟩).2
    ∧ stableB (fun f => if f = 5 then some ⟨3500000000, 0⟩ else none) 30 5 = true := by
  refine ⟨by decide, ?_⟩
  exact C6_worker_commits_stable (fun f => if f = 5 then some ⟨3500000000, 0⟩ else none)
    30 (fun _ => true) ⟨[5], [], true⟩ 5 (by decide)

/-! ## C8: FIFO transfer order -/

/-- Formalisation of claim C8 for the threaded variant: for two artifacts
queued in generation order `[0, 1]`, under every environment (file states,
clock, upload outcomes per pass) the worker loop's commit sequence is
non-decreasing in generation index — a later artifact is never committed
before an earlier one. -/
def workerCommitsFIFO : Prop :=
  ∀ (fs : Nat → Nat → Option FileInfo) (now : Nat → Int)
    (ok : Nat → Nat → Bool) (fuel : Nat),
    (workerLoopCommits fs now ok fuel 0 ⟨[0, 1], [], true⟩).Pairwise (· ≤ ·)

/-- Counterexample for C8: when artifact 0 is not yet stable on the first
poll (its file was modified 10 s ago) while artifact 1 is, the worker skips
artifact 0 and commits artifact 1 first, committing artifact 0 only on the
next poll — commit order [1, 0], not FIFO. -/
theorem C8_counterexample : ¬ workerCommitsFIFO := by
  intro h
  have h0 := h
    (fun _ f => if f = 0 then some ⟨3500000000, 0⟩
      else if f = 1 then some ⟨3500000000, -100⟩ else none)
    (fun i => if i = 0 then 10 else 40)
    (fun _ _ => true) 3
  revert h0
  decide

/-- The state change of a single scan step: either the state is untouched,
or (on a successful upload of `g`) `g` moves from pending to uploaded. -/
theorem passFile_state (fs : Nat → Option FileInfo) (now : Int)
    (ok : Nat → Bool) (sc : WState × List Nat) (g : Nat) :
    (passFile fs now ok sc g).1 = sc.1 ∨
    (ok g = true ∧ (passFile fs now ok sc g).1
      = ⟨sc.1.pending.erase g, g :: sc.1.uploaded, sc.1.done⟩) := by
  unfold passFile
  by_cases h1 : g ∈ sc.1.uploaded
  · simp [h1]
  · cases hfs : fs g with
    | none => simp [h1, hfs]
    | some fi =>
        by_cases h2 : stableB fs now g
        · by_cases h3 : ok g
          · right
            simp [h1, hfs, h2, h3]
          · simp [h1, hfs, h2, h3]
        · simp [h1, hfs, h2]

/-- A scan over a duplicate-free snapshot of files that are all stable, not
yet uploaded, and whose uploads all succeed commits exactly the snapshot,
in snapshot order. -/
theorem foldPass_all_ok (fs : Nat → Option FileInfo) (now : Int)
    (ok : Nat → Bool) :
    ∀ (l : List Nat) (sc : WState × List Nat),
      (∀ f ∈ l, stableB fs now f = true) →
      (∀ f ∈ l, ok f = true) →
      (∀ f ∈ l, f ∉ sc.1.uploaded) →
      l.Nodup →
      (List.foldl (passFile fs now ok) sc l).2 = sc.2 ++ l := by
  intro l
  induction l with
  | nil =>
      intro sc _ _ _ _
      simp
  | cons g rest ih =>
      intro sc hstable hok hup hnd
      rw [List.foldl_cons]
      have hg1 : g ∉ sc.1.uploaded := hup g (by simp)
      have hg2 : stableB fs now g = true := hstable g (by simp)
      have hg3 : ok g = true := hok g (by simp)
      have hfs : ∃ fi, fs g = some fi := by
        unfold stableB at hg2
        cases hfs : fs g with
        | none => rw [hfs] at hg2; simp at hg2
        | some fi => exact ⟨fi, rfl⟩
      obtain ⟨fi, hfs⟩ := hfs
      have hstep : passFile fs now ok sc g
          = ({ pending := sc.1.pending.erase g, uploaded := g :: sc.1.uploaded,
               done := sc.1.done }, sc.2 ++ [g]) := by
        unfold passFile
        simp [hg1, hfs, hg2, hg3]
      rw [hstep]
      have hnd' := List.nodup_cons.mp hnd
      rw [ih _ (fun f hf => hstable f (by simp [hf]))
        (fun f hf => hok f (by simp [hf]))
        (fun f hf => by
          simp only [List.mem_cons, not_or]
          exact ⟨fun he => hnd'.1 (he ▸ hf), hup f (by simp [hf])⟩)
        hnd'.2]
      simp

/-- Claim C8 (amended): artifacts complete their transfer in generation
order (FIFO) in the sequential 2020 variant unconditionally, and in the
threaded variant whenever every pending artifact is stable, not yet
uploaded, duplicate-free, and every upload attempt succeeds at the pass
where it is first scanned; when an earlier artifact is unstable or its
upload fails at scan time, a later artifact may be committed first (see the
counterexample). -/
theorem C8_fifo_transfer_order (K : Nat) (hK : 2 ≤ K)
    (fs : Nat → Option FileInfo) (now : Int) (ok : Nat → Bool) (s : WState)
    (hstable : ∀ f ∈ s.pending, stableB fs now f = true)
    (hok : ∀ f ∈ s.pending, ok f = true)
    (hup : ∀ f ∈ s.pending, f ∉ s.uploaded)
    (hnd : s.pending.Nodup) :
    procDates (runSeq K) = List.range K
    ∧ (workerPass fs now ok s).2 = s.pending := by
  constructor
  · have hne : ([0, 1] : List Nat) ≠ [] := by simp
    have hproc := mainLoopF_ff_proc (K - 2) 2 [0, 1] hne
    have hrange : List.range K = 0 :: 1 :: List.range' 2 (K - 2) := by
      obtain ⟨m, rfl⟩ : ∃ m, K = m + 2 := ⟨K - 2, by omega⟩
      rw [List.range_eq_range']
      simp only [Nat.add_sub_cancel]
      rw [show m + 2 = (m + 1) + 1 from rfl, List.range'_succ, List.range'_succ]
    simp only [runSeq, runSeqF, procDates, List.filterMap_cons] at hproc ⊢
    rw [hproc, hrange]
    simp
  · have h := foldPass_all_ok fs now ok s.pending (s, []) hstable hok hup hnd
    simpa [workerPass] using h

/-- Witness for C8 (amended): `K = 2` and a two-artifact pending list, both
stable and succeeding — processing order `[0, 1]` in the sequential run,
commit order `[0, 1]` in the worker pass. -/
theorem C8_fifo_transfer_order_witness :
    (2 ≤ 2
    ∧ (∀ f ∈ (⟨[0, 1], [], true⟩ : WState).pending,
        stableB (fun _ => some ⟨3500000000, 0⟩) 30 f = true))
    ∧ (procDates (runSeq 2) = List.range 2
    ∧ (workerPass (fun _ => some ⟨3500000000, 0⟩) 30 (fun _ => true)
        ⟨[0, 1], [], true⟩).2 = (⟨[0, 1], [], true⟩ : WState).pending) :=
  ⟨⟨by decide, by decide⟩,
    C8_fifo_transfer_order 2 (by decide) (fun _ => some ⟨3500000000, 0⟩) 30
      (fun _ => true) ⟨[0, 1], [], true⟩ (by decide) (by decide) (by decide)
      (by decide)⟩

/-! ## C9: per-job failure handling -/

/-- Formalisation of claim C9 for the sequential (2020) variant: a failure
raised inside post-processing or transfer of one job never aborts the run. -/
def seqRunNeverAborts : Prop :=
  ∀ (K : Nat) (pf : Nat → Bool), (runSeqF K pf).2 = false

/-- Counterexample for C9: with a three-date range, an exception raised by
`subset_and_upload` on the first artifact propagates out of the date loop
(there is no `try`/`except` in the 2020 `run_forecasts`), aborting the run. -/
theorem C9_counterexample : ¬ seqRunNeverAborts := by
  intro h
  have h0 := h 3 (fun d => d == 0)
  revert h0
  decide

/-- A failed upload of `f` leaves `f` pending and unrecorded through a whole
scan, whatever else the scan does. -/
theorem foldPass_failed_retained (fs : Nat → Option FileInfo) (now : Int)
    (ok : Nat → Bool) (f : Nat) (hf : ok f = false) :
    ∀ (l : List Nat) (sc : WState × List Nat),
      f ∈ sc.1.pending → f ∉ sc.1.uploaded →
      f ∈ (List.foldl (passFile fs now ok) sc l).1.pending
      ∧ f ∉ (List.foldl (passFile fs now ok) sc l).1.uploaded := by
  intro l
  induction l with
  | nil =>
      intro sc h1 h2
      exact ⟨h1, h2⟩
  | cons g rest ih =>
      intro sc h1 h2
      rw [List.foldl_cons]
      rcases passFile_state fs now ok sc g with hp | ⟨hg, hp⟩
      · exact ih _ (hp ▸ h1) (hp ▸ h2)
      · have hne : f ≠ g := by
          intro he
          rw [he] at hf
          rw [hf] at hg
          exact Bool.false_ne_true hg
        apply ih (passFile fs now ok sc g)
        · rw [hp]
          exact (List.mem_erase_of_ne hne).mpr h1
        · rw [hp]
          simp only [List.mem_cons, not_or]
          exact ⟨hne, h2⟩

/-- Claim C9 (amended): in the threaded variant a transfer failure for one
job is caught by the worker (the loop is total and continues): the failed
artifact stays pending and is not marked uploaded, remaining available for
retry on the next poll.  In the sequential 2020 variant, however, an
exception inside `subset_and_upload` propagates: the run aborts after the
failing job's processing attempt, and no later job is generated or
processed (see the counterexample). -/
theorem C9_failure_handling (fs : Nat → Option FileInfo) (now : Int)
    (ok : Nat → Bool) (s : WState) (f : Nat) (K : Nat) (pf : Nat → Bool)
    (hf : ok f = false) (h1 : f ∈ s.pending) (h2 : f ∉ s.uploaded)
    (hK : 3 ≤ K) (hpf : pf 0 = true) :
    (f ∈ (workerPass fs now ok s).1.pending
      ∧ f ∉ (workerPass fs now ok s).1.uploaded)
    ∧ ((runSeqF K pf).1 = [Ev.gen 0, Ev.gen 1, Ev.proc 0]
      ∧ (runSeqF K pf).2 = true) := by
  constructor
  · exact foldPass_failed_retained fs now ok f hf s.pending (s, []) h1 h2
  · obtain ⟨m, rfl⟩ : ∃ m, K = m + 3 := ⟨K - 3, by omega⟩
    have h3 : m + 3 - 2 = m + 1 := by omega
    simp [runSeqF, h3, mainLoopF, hpf]

/-- Witness for C9 at a failing upload of artifact 0 in a one-element
pending list, and a three-date sequential run failing on artifact 0. -/
theorem C9_failure_handling_witness :
    ((fun _ : Nat => false) 0 = false ∧ 0 ∈ (⟨[0], [], false⟩ : WState).pending
      ∧ 0 ∉ (⟨[0], [], false⟩ : WState).uploaded ∧ 3 ≤ 3
      ∧ (fun d : Nat => d == 0) 0 = true)
    ∧ ((0 ∈ (workerPass (fun _ => some ⟨3500000000, 0⟩) 30 (fun _ => false)
          ⟨[0], [], false⟩).1.pending
      ∧ 0 ∉ (workerPass (fun _ => some ⟨3500000000, 0⟩) 30 (fun _ => false)
          ⟨[0], [], false⟩).1.uploaded)
    ∧ ((runSeqF 3 (fun d => d == 0)).1 = [Ev.gen 0, Ev.gen 1, Ev.proc 0]
      ∧ (runSeqF 3 (fun d => d == 0)).2 = true)) :=
  ⟨⟨rfl, by decide, by decide, by decide, by decide⟩,
    C9_failure_handling (fun _ => some ⟨3500000000, 0⟩) 30 (fun _ => false)
      ⟨[0], [], false⟩ 0 3 (fun d => d == 0) rfl (by decide) (by decide)
      (by decide) (by decide)⟩
